import Mathlib

/-!
Verification of the byte-level ZIP scanner `extract_jsons` of
`src/wasm-unzipper/src/lib.rs`.

The scanner walks a raw byte buffer looking for ZIP local-file-header
records, parses the little-endian header fields at fixed offsets, decodes
the entries whose (lossily UTF-8 decoded) name ends in `.json`, and collects
every payload that the JSON parser accepts, in encounter order.

Shallow embedding conventions:
* the byte buffer `zip_bytes : &[u8]` is a `List Nat` of byte values;
* `u16::from_le_bytes` / `u32::from_le_bytes` become `u16le` / `u32le`;
* the Rust slice `b[s..t]` becomes `byteSlice b s t`;
* the two external primitives of the scanner are kept abstract, exactly as
  the spec describes them: the deflate primitive
  `miniz_oxide::inflate::decompress_to_vec` is a parameter
  `inflate : List Nat → Option (List Nat)` (failure = `none`, and the source
  applies `.unwrap_or_default()` to it), and the JSON validator
  `serde_json::from_slice::<Value>` is a parameter
  `parse : List Nat → Option J` into an arbitrary value type `J`;
* the trailing `serde_wasm_bindgen::to_value(&results).unwrap()` marshalling
  of the final `Vec` across the wasm boundary is outside the scanner proper
  (the spec lists the host boundary as out of scope), so the embedded
  function returns the result list itself;
* offset arithmetic is carried out in unbounded `Nat`.  The source is
  compiled for the wasm32 target, where `usize` is 32 bits, so the
  `data_end = data_start + compressed_size` sum of line 41 can wrap there
  (`compressed_size` is a full untrusted `u32`); the `…Wasm32` offset
  functions near the end of the file model the wrapped values, and the
  overflow theorems show a 40-byte buffer on which the program panics
  while the unbounded model truncates cleanly.

`String::from_utf8_lossy(name).ends_with(".json")` is embedded as a byte
level suffix test: `.json` is pure ASCII, lossy UTF-8 decoding maps each
ASCII input byte to exactly that ASCII character and never produces an ASCII
character from a non-ASCII byte (invalid sequences become U+FFFD), so the
decoded string ends with `".json"` iff the raw name bytes end with
`0x2e 0x6a 0x73 0x6f 0x6e`.
-/

/-- `u16::from_le_bytes([b[i], b[i+1]])`, lines 22-23 of the source. -/
def u16le (b : List Nat) (i : Nat) : Nat :=
  b.getD i 0 + 256 * b.getD (i + 1) 0

/-- `u32::from_le_bytes([b[i], b[i+1], b[i+2], b[i+3]])`, lines 24-29. -/
def u32le (b : List Nat) (i : Nat) : Nat :=
  b.getD i 0 + 256 * b.getD (i + 1) 0 + 65536 * b.getD (i + 2) 0 +
    16777216 * b.getD (i + 3) 0

/-- The Rust slice `b[s..t]` (for `s ≤ t ≤ b.len()`, which the scanner
always establishes before slicing). -/
def byteSlice (b : List Nat) (s t : Nat) : List Nat :=
  (b.drop s).take (t - s)

/-- The local-file-header magic `[0x50, 0x4b, 0x03, 0x04]`, line 16. -/
def magicBytes : List Nat := [0x50, 0x4b, 0x03, 0x04]

/-- The signature test `&zip_bytes[pos..pos + 4] == [0x50, 0x4b, 0x03, 0x04]`
of line 16 (the source tests `!=` and skips; we keep the positive form). -/
def magicAt (b : List Nat) (pos : Nat) : Bool :=
  byteSlice b pos (pos + 4) == magicBytes

/-- The ASCII bytes of `".json"`. -/
def jsonSuffix : List Nat := [0x2e, 0x6a, 0x73, 0x6f, 0x6e]

/-- `String::from_utf8_lossy(file_name).ends_with(".json")`, line 47,
expressed on the raw name bytes (see the header comment for why the lossy
decoding is transparent for an ASCII suffix). -/
def nameEndsWithJson (name : List Nat) : Bool :=
  jsonSuffix.isSuffixOf name

/-- `compression_method`, read at offsets pos+8, pos+9 (line 30). -/
def compressionMethodAt (b : List Nat) (pos : Nat) : Nat := u16le b (pos + 8)

/-- `compressed_size`, read at offsets pos+18 .. pos+21 (lines 24-29). -/
def compressedSizeAt (b : List Nat) (pos : Nat) : Nat := u32le b (pos + 18)

/-- `file_name_len`, read at offsets pos+26, pos+27 (line 22). -/
def fileNameLenAt (b : List Nat) (pos : Nat) : Nat := u16le b (pos + 26)

/-- `extra_len`, read at offsets pos+28, pos+29 (line 23). -/
def extraLenAt (b : List Nat) (pos : Nat) : Nat := u16le b (pos + 28)

/-- `name_end = name_start + file_name_len` with `name_start = pos + 30`
(lines 32-33). -/
def nameEndAt (b : List Nat) (pos : Nat) : Nat := pos + 30 + fileNameLenAt b pos

/-- `data_start = name_end + extra_len` (line 40). -/
def dataStartAt (b : List Nat) (pos : Nat) : Nat := nameEndAt b pos + extraLenAt b pos

/-- `data_end = data_start + compressed_size` (line 41), as an unbounded
natural sum.  On the wasm32 target the source performs this addition in
32-bit `usize` and `compressed_size` is a full attacker-controlled `u32`,
so the real sum can wrap; `dataEndWasm32` below models the wrapped value,
and the overflow theorems at the end of the file exhibit a buffer on which
the two disagree observably. -/
def dataEndAt (b : List Nat) (pos : Nat) : Nat := dataStartAt b pos + compressedSizeAt b pos

/-- `file_name = &zip_bytes[name_start..name_end]`, line 37. -/
def entryNameAt (b : List Nat) (pos : Nat) : List Nat :=
  byteSlice b (pos + 30) (nameEndAt b pos)

/-- `compressed_data = &zip_bytes[data_start..data_end]`, line 45. -/
def entryDataAt (b : List Nat) (pos : Nat) : List Nat :=
  byteSlice b (dataStartAt b pos) (dataEndAt b pos)

/-- The `decompressed` value of lines 48-54: method 0 keeps the bytes
verbatim, method 8 inflates them with `unwrap_or_default()` (an empty
vector on inflate failure), any other method yields `Vec::new()`. -/
def decompBytes (inflate : List Nat → Option (List Nat)) (method : Nat)
    (data : List Nat) : List Nat :=
  if method = 0 then data
  else if method = 8 then (inflate data).getD []
  else []

/-- The value an entry contributes to `results` (lines 47-59): `none`
when the name fails the `.json` selector or the decompressed bytes fail
JSON parsing, `some v` when `serde_json::from_slice` succeeds with `v`. -/
def entryValueAt {J : Type} (inflate : List Nat → Option (List Nat))
    (parse : List Nat → Option J) (b : List Nat) (pos : Nat) : Option J :=
  if nameEndsWithJson (entryNameAt b pos) then
    parse (decompBytes inflate (compressionMethodAt b pos) (entryDataAt b pos))
  else none

/-- The scanning loop of lines 14-62: while `pos + 30 < zip_bytes.len()`,
re-synchronize byte by byte on a signature mismatch, break out on a name or
payload region overrunning the buffer, otherwise append the entry's decoded
value (if any) to `results` and jump to `data_end`. -/
def scanLoop {J : Type} (inflate : List Nat → Option (List Nat))
    (parse : List Nat → Option J) (b : List Nat) (pos : Nat) (acc : List J) :
    List J :=
  if h1 : pos + 30 < b.length then
    if magicAt b pos then
      if b.length < nameEndAt b pos then acc
      else if b.length < dataEndAt b pos then acc
      else
        scanLoop inflate parse b (dataEndAt b pos)
          (acc ++ (entryValueAt inflate parse b pos).toList)
    else scanLoop inflate parse b (pos + 1) acc
  else acc
termination_by b.length - pos
decreasing_by
  · simp only [dataEndAt, dataStartAt, nameEndAt]; omega
  · omega

/-- `extract_jsons` (lines 10-65): run the scan from position 0 with an
empty result vector. -/
def extract_jsons {J : Type} (inflate : List Nat → Option (List Nat))
    (parse : List Nat → Option J) (zip_bytes : List Nat) : List J :=
  scanLoop inflate parse zip_bytes 0 []

/-! ### One-step unfolding lemmas for the loop -/

/-- The loop guard fails: the accumulated results are returned. -/
theorem scanLoop_stop {J : Type} (inflate : List Nat → Option (List Nat))
    (parse : List Nat → Option J) (b : List Nat) (pos : Nat) (acc : List J)
    (h : ¬ pos + 30 < b.length) :
    scanLoop inflate parse b pos acc = acc := by
  rw [scanLoop]; simp [h]

/-- Signature mismatch: the cursor advances by one byte. -/
theorem scanLoop_skip {J : Type} (inflate : List Nat → Option (List Nat))
    (parse : List Nat → Option J) (b : List Nat) (pos : Nat) (acc : List J)
    (h1 : pos + 30 < b.length) (h2 : magicAt b pos = false) :
    scanLoop inflate parse b pos acc = scanLoop inflate parse b (pos + 1) acc := by
  rw [scanLoop]; simp [h1, h2]

/-- The name region overruns the buffer: the whole scan stops. -/
theorem scanLoop_break_name {J : Type} (inflate : List Nat → Option (List Nat))
    (parse : List Nat → Option J) (b : List Nat) (pos : Nat) (acc : List J)
    (h1 : pos + 30 < b.length) (h2 : magicAt b pos = true)
    (h3 : b.length < nameEndAt b pos) :
    scanLoop inflate parse b pos acc = acc := by
  rw [scanLoop]; simp [h1, h2, h3]

/-- The payload region overruns the buffer: the whole scan stops. -/
theorem scanLoop_break_data {J : Type} (inflate : List Nat → Option (List Nat))
    (parse : List Nat → Option J) (b : List Nat) (pos : Nat) (acc : List J)
    (h1 : pos + 30 < b.length) (h2 : magicAt b pos = true)
    (h3 : ¬ b.length < nameEndAt b pos) (h4 : b.length < dataEndAt b pos) :
    scanLoop inflate parse b pos acc = acc := by
  rw [scanLoop]; simp [h1, h2, h3, h4]

/-- `nameEndAt` never exceeds `dataEndAt`. -/
theorem nameEndAt_le_dataEndAt (b : List Nat) (pos : Nat) :
    nameEndAt b pos ≤ dataEndAt b pos := by
  simp only [dataEndAt, dataStartAt]; omega

/-- The cursor jump of a processed entry is at least the fixed header size. -/
theorem le_dataEndAt (b : List Nat) (pos : Nat) :
    pos + 30 ≤ dataEndAt b pos := by
  simp only [dataEndAt, dataStartAt, nameEndAt]; omega

/-- An in-bounds entry is processed: its decoded value (if any) is appended
and the cursor jumps to `data_end`. -/
theorem scanLoop_entry {J : Type} (inflate : List Nat → Option (List Nat))
    (parse : List Nat → Option J) (b : List Nat) (pos : Nat) (acc : List J)
    (h1 : pos + 30 < b.length) (h2 : magicAt b pos = true)
    (h4 : ¬ b.length < dataEndAt b pos) :
    scanLoop inflate parse b pos acc =
      scanLoop inflate parse b (dataEndAt b pos)
        (acc ++ (entryValueAt inflate parse b pos).toList) := by
  have h3 : ¬ b.length < nameEndAt b pos := by
    have := nameEndAt_le_dataEndAt b pos; omega
  rw [scanLoop]; simp [h1, h2, h3, h4]

/-! ### The accumulator only ever grows by appending -/

/-- Fuel-indexed form: the accumulator passes through the scan unchanged in
front of the values produced from `pos` onward. -/
theorem scanLoop_acc {J : Type} (inflate : List Nat → Option (List Nat))
    (parse : List Nat → Option J) (b : List Nat) :
    ∀ (n pos : Nat), b.length - pos ≤ n → ∀ acc : List J,
      scanLoop inflate parse b pos acc = acc ++ scanLoop inflate parse b pos [] := by
  intro n
  induction n with
  | zero =>
    intro pos h acc
    have h1 : ¬ pos + 30 < b.length := by omega
    rw [scanLoop_stop _ _ _ _ _ h1, scanLoop_stop _ _ _ _ _ h1]; simp
  | succ n ih =>
    intro pos h acc
    by_cases h1 : pos + 30 < b.length
    · cases h2 : magicAt b pos with
      | false =>
        rw [scanLoop_skip _ _ _ _ _ h1 h2, scanLoop_skip _ _ _ _ _ h1 h2]
        exact ih (pos + 1) (by omega) acc
      | true =>
        by_cases h3 : b.length < nameEndAt b pos
        · rw [scanLoop_break_name _ _ _ _ _ h1 h2 h3,
              scanLoop_break_name _ _ _ _ _ h1 h2 h3]
          simp
        · by_cases h4 : b.length < dataEndAt b pos
          · rw [scanLoop_break_data _ _ _ _ _ h1 h2 h3 h4,
                scanLoop_break_data _ _ _ _ _ h1 h2 h3 h4]
            simp
          · have hd := le_dataEndAt b pos
            rw [scanLoop_entry _ _ _ _ acc h1 h2 h4,
                scanLoop_entry _ _ _ _ [] h1 h2 h4,
                ih (dataEndAt b pos) (by omega)
                  (acc ++ (entryValueAt inflate parse b pos).toList),
                ih (dataEndAt b pos) (by omega)
                  ([] ++ (entryValueAt inflate parse b pos).toList)]
            simp
    · rw [scanLoop_stop _ _ _ _ _ h1, scanLoop_stop _ _ _ _ _ h1]; simp

/-- The accumulator passes through the scan unchanged, in front. -/
theorem scanLoop_acc_out {J : Type} (inflate : List Nat → Option (List Nat))
    (parse : List Nat → Option J) (b : List Nat) (pos : Nat) (acc : List J) :
    scanLoop inflate parse b pos acc = acc ++ scanLoop inflate parse b pos [] :=
  scanLoop_acc inflate parse b b.length pos (by omega) acc

/-- If the signature never matches at any scanned position, the scan only
re-synchronizes byte by byte and returns its accumulator unchanged. -/
theorem scanLoop_noMagic {J : Type} (inflate : List Nat → Option (List Nat))
    (parse : List Nat → Option J) (b : List Nat)
    (hm : ∀ q, q + 30 < b.length → magicAt b q = false) :
    ∀ (n pos : Nat), b.length - pos ≤ n → ∀ acc : List J,
      scanLoop inflate parse b pos acc = acc := by
  intro n
  induction n with
  | zero =>
    intro pos h acc
    exact scanLoop_stop _ _ _ _ _ (by omega)
  | succ n ih =>
    intro pos h acc
    by_cases h1 : pos + 30 < b.length
    · rw [scanLoop_skip _ _ _ _ _ h1 (hm pos h1)]
      exact ih (pos + 1) (by omega) acc
    · exact scanLoop_stop _ _ _ _ _ h1

/-! ### The bounds-checked refinement of the scanner (model level)

Every buffer access of the Rust loop — the 4-byte signature slice, the ten
individual header-byte reads, the name slice and the payload slice — panics
when out of range.  `scanLoopChecked` is the same loop with every access
returning `none` instead of panicking; proving it equal to
`some (scanLoop …)` shows no access is ever out of bounds *in this model*,
whose offsets are unbounded naturals.  It does not capture the wasm32
`usize` wrap of the `data_end` sum, which makes a start-beyond-end payload
slice reachable in the real program; that divergence is treated separately
by the wasm32 offset functions and the overflow theorems at the end of the
file. -/

/-- Checked 16-bit little-endian read: `none` if either byte is out of
bounds. -/
def u16leChecked (b : List Nat) (i : Nat) : Option Nat :=
  match b.get? i, b.get? (i + 1) with
  | some x0, some x1 => some (x0 + 256 * x1)
  | _, _ => none

/-- Checked 32-bit little-endian read: `none` if any byte is out of
bounds. -/
def u32leChecked (b : List Nat) (i : Nat) : Option Nat :=
  match b.get? i, b.get? (i + 1), b.get? (i + 2), b.get? (i + 3) with
  | some x0, some x1, some x2, some x3 =>
      some (x0 + 256 * x1 + 65536 * x2 + 16777216 * x3)
  | _, _, _, _ => none

/-- Checked Rust range slice `b[s..t]`: defined only when
`s ≤ t ∧ t ≤ b.len()`, exactly the condition under which the Rust slice
does not panic. -/
def byteSliceChecked (b : List Nat) (s t : Nat) : Option (List Nat) :=
  if s ≤ t ∧ t ≤ b.length then some (byteSlice b s t) else none

/-- The scanning loop with every buffer access bounds-checked, in source
order: signature slice, header fields (name length, extra length,
compressed size, method), name-region test, name slice, payload-region
test, payload slice. -/
def scanLoopChecked {J : Type} (inflate : List Nat → Option (List Nat))
    (parse : List Nat → Option J) (b : List Nat) (pos : Nat) (acc : List J) :
    Option (List J) :=
  if h1 : pos + 30 < b.length then
    match byteSliceChecked b pos (pos + 4) with
    | none => none
    | some sig =>
      if sig = magicBytes then
        match u16leChecked b (pos + 26), u16leChecked b (pos + 28),
              u32leChecked b (pos + 18), u16leChecked b (pos + 8) with
        | some fnl, some xl, some cs, some m =>
          if b.length < pos + 30 + fnl then some acc
          else
            match byteSliceChecked b (pos + 30) (pos + 30 + fnl) with
            | none => none
            | some name =>
              if b.length < pos + 30 + fnl + xl + cs then some acc
              else
                match byteSliceChecked b (pos + 30 + fnl + xl)
                    (pos + 30 + fnl + xl + cs) with
                | none => none
                | some data =>
                  scanLoopChecked inflate parse b (pos + 30 + fnl + xl + cs)
                    (acc ++ (if nameEndsWithJson name then
                        parse (decompBytes inflate m data) else none).toList)
        | _, _, _, _ => none
      else scanLoopChecked inflate parse b (pos + 1) acc
  else some acc
termination_by b.length - pos
decreasing_by
  · omega
  · omega

/-- `extract_jsons` with every buffer access bounds-checked. -/
def extract_jsonsChecked {J : Type} (inflate : List Nat → Option (List Nat))
    (parse : List Nat → Option J) (zip_bytes : List Nat) : Option (List J) :=
  scanLoopChecked inflate parse zip_bytes 0 []

/-- An in-bounds index read with `get?` yields the `getD` value. -/
theorem get?_eq_some_getD (l : List Nat) (i : Nat) (h : i < l.length) :
    l.get? i = some (l.getD i 0) := by
  rw [List.getD_eq_getElem?_getD, ← List.get?_eq_getElem?]
  cases hg : l.get? i with
  | none => rw [List.get?_eq_none] at hg; omega
  | some v => rfl

/-- In-bounds checked 16-bit read. -/
theorem u16leChecked_eq (b : List Nat) (i : Nat) (h : i + 1 < b.length) :
    u16leChecked b i = some (u16le b i) := by
  rw [u16leChecked, get?_eq_some_getD b i (by omega),
    get?_eq_some_getD b (i + 1) (by omega)]
  rfl

/-- In-bounds checked 32-bit read. -/
theorem u32leChecked_eq (b : List Nat) (i : Nat) (h : i + 3 < b.length) :
    u32leChecked b i = some (u32le b i) := by
  rw [u32leChecked, get?_eq_some_getD b i (by omega),
    get?_eq_some_getD b (i + 1) (by omega), get?_eq_some_getD b (i + 2) (by omega),
    get?_eq_some_getD b (i + 3) (by omega)]
  rfl

/-- In-bounds checked slice. -/
theorem byteSliceChecked_eq (b : List Nat) (s t : Nat) (h1 : s ≤ t)
    (h2 : t ≤ b.length) : byteSliceChecked b s t = some (byteSlice b s t) := by
  simp [byteSliceChecked, h1, h2]

/-- Fuel-indexed refinement: under the loop guard every access the Rust
loop performs is in bounds, so the checked loop never fails and computes
exactly the unchecked scan. -/
theorem scanLoopChecked_eq {J : Type} (inflate : List Nat → Option (List Nat))
    (parse : List Nat → Option J) (b : List Nat) :
    ∀ (n pos : Nat), b.length - pos ≤ n → ∀ acc : List J,
      scanLoopChecked inflate parse b pos acc =
        some (scanLoop inflate parse b pos acc) := by
  intro n
  induction n with
  | zero =>
    intro pos h acc
    have h1 : ¬ pos + 30 < b.length := by omega
    rw [scanLoopChecked, scanLoop_stop _ _ _ _ _ h1]
    simp [h1]
  | succ n ih =>
    intro pos h acc
    by_cases h1 : pos + 30 < b.length
    · rw [scanLoopChecked]
      rw [byteSliceChecked_eq b pos (pos + 4) (by omega) (by omega)]
      have hmagic : (byteSlice b pos (pos + 4) = magicBytes) ↔ magicAt b pos = true := by
        simp [magicAt]
      by_cases h2 : magicAt b pos
      · rw [u16leChecked_eq b (pos + 26) (by omega),
          u16leChecked_eq b (pos + 28) (by omega),
          u32leChecked_eq b (pos + 18) (by omega),
          u16leChecked_eq b (pos + 8) (by omega)]
        have e1 : u16le b (pos + 26) = fileNameLenAt b pos := rfl
        have e2 : pos + 30 + fileNameLenAt b pos = nameEndAt b pos := rfl
        have e3 : nameEndAt b pos + u16le b (pos + 28) + u32le b (pos + 18) =
            dataEndAt b pos := rfl
        simp only [e1, e2, hmagic.2 h2, if_true, dif_pos h1]
        by_cases h3 : b.length < nameEndAt b pos
        · rw [scanLoop_break_name _ _ _ _ _ h1 h2 h3]
          simp [h3]
        · have hne : nameEndAt b pos ≤ b.length := by omega
          rw [byteSliceChecked_eq b (pos + 30) (nameEndAt b pos)
              (by simp only [nameEndAt]; omega) hne]
          simp only [h3, if_false, if_neg h3]
          rw [show nameEndAt b pos + u16le b (pos + 28) + u32le b (pos + 18) =
              dataEndAt b pos from rfl]
          by_cases h4 : b.length < dataEndAt b pos
          · rw [scanLoop_break_data _ _ _ _ _ h1 h2 h3 h4]
            simp [h4]
          · have hds : nameEndAt b pos + u16le b (pos + 28) = dataStartAt b pos := rfl
            rw [hds]
            rw [byteSliceChecked_eq b (dataStartAt b pos) (dataEndAt b pos)
              (by simp only [dataEndAt]; omega) (by omega)]
            simp only [h4, if_neg h4]
            rw [scanLoop_entry _ _ _ _ _ h1 h2 h4]
            have hval : (if nameEndsWithJson (byteSlice b (pos + 30) (nameEndAt b pos)) then
                parse (decompBytes inflate (u16le b (pos + 8))
                  (byteSlice b (dataStartAt b pos) (dataEndAt b pos)))
              else none) = entryValueAt inflate parse b pos := rfl
            rw [hval]
            have hd := le_dataEndAt b pos
            exact ih (dataEndAt b pos) (by omega) _
      · have h2f : ¬ byteSlice b pos (pos + 4) = magicBytes := by
          rw [hmagic]; simpa using h2
        simp only [dif_pos h1, if_neg h2f]
        rw [scanLoop_skip _ _ _ _ _ h1 (by simpa using h2)]
        exact ih (pos + 1) (by omega) acc
    · rw [scanLoopChecked, scanLoop_stop _ _ _ _ _ h1]
      simp [h1]

/-! ### The instrumented scan

`scanLoopC` is the same loop carrying two observation counters: `infCnt`
counts the invocations of the inflate primitive (the method-8 branch of
lines 50-51, which the source reaches only for entries that passed the
`.json` selector of line 47), and `chkCnt` counts the signature comparisons
of line 16 (exactly one per loop iteration). -/

def scanLoopC {J : Type} (inflate : List Nat → Option (List Nat))
    (parse : List Nat → Option J) (b : List Nat) (pos : Nat) (acc : List J)
    (infCnt chkCnt : Nat) : List J × Nat × Nat :=
  if h1 : pos + 30 < b.length then
    if magicAt b pos then
      if b.length < nameEndAt b pos then (acc, infCnt, chkCnt + 1)
      else if b.length < dataEndAt b pos then (acc, infCnt, chkCnt + 1)
      else
        scanLoopC inflate parse b (dataEndAt b pos)
          (acc ++ (entryValueAt inflate parse b pos).toList)
          (infCnt + (if nameEndsWithJson (entryNameAt b pos) = true ∧
              compressionMethodAt b pos = 8 then 1 else 0))
          (chkCnt + 1)
    else scanLoopC inflate parse b (pos + 1) acc infCnt (chkCnt + 1)
  else (acc, infCnt, chkCnt)
termination_by b.length - pos
decreasing_by
  · simp only [dataEndAt, dataStartAt, nameEndAt]; omega
  · omega

/-- The instrumentation is a refinement: its first component is the plain
scan. -/
theorem scanLoopC_results {J : Type} (inflate : List Nat → Option (List Nat))
    (parse : List Nat → Option J) (b : List Nat) :
    ∀ (n pos : Nat), b.length - pos ≤ n → ∀ (acc : List J) (ic cc : Nat),
      (scanLoopC inflate parse b pos acc ic cc).1 = scanLoop inflate parse b pos acc := by
  intro n
  induction n with
  | zero =>
    intro pos h acc ic cc
    have h1 : ¬ pos + 30 < b.length := by omega
    rw [scanLoopC, scanLoop_stop _ _ _ _ _ h1]
    simp [h1]
  | succ n ih =>
    intro pos h acc ic cc
    by_cases h1 : pos + 30 < b.length
    · cases h2 : magicAt b pos with
      | false =>
        rw [scanLoopC, scanLoop_skip _ _ _ _ _ h1 h2]
        simp only [dif_pos h1, h2, Bool.false_eq_true, if_false]
        exact ih (pos + 1) (by omega) acc ic (cc + 1)
      | true =>
        by_cases h3 : b.length < nameEndAt b pos
        · rw [scanLoopC, scanLoop_break_name _ _ _ _ _ h1 h2 h3]
          simp [h1, h2, h3]
        · by_cases h4 : b.length < dataEndAt b pos
          · rw [scanLoopC, scanLoop_break_data _ _ _ _ _ h1 h2 h3 h4]
            simp [h1, h2, h3, h4]
          · have hd := le_dataEndAt b pos
            rw [scanLoopC, scanLoop_entry _ _ _ _ _ h1 h2 h4]
            simp only [dif_pos h1, h2, if_true, if_neg h3, if_neg h4]
            exact ih (dataEndAt b pos) (by omega) _ _ _
    · rw [scanLoopC, scanLoop_stop _ _ _ _ _ h1]
      simp [h1]

/-- The number of signature comparisons performed from position `pos` is at
most the number of bytes remaining from `pos`: the cursor strictly
increases on every iteration. -/
theorem scanLoopC_chk_le {J : Type} (inflate : List Nat → Option (List Nat))
    (parse : List Nat → Option J) (b : List Nat) :
    ∀ (n pos : Nat), b.length - pos ≤ n → ∀ (acc : List J) (ic cc : Nat),
      (scanLoopC inflate parse b pos acc ic cc).2.2 ≤ cc + (b.length - pos) := by
  intro n
  induction n with
  | zero =>
    intro pos h acc ic cc
    have h1 : ¬ pos + 30 < b.length := by omega
    rw [scanLoopC]
    simp [h1]
  | succ n ih =>
    intro pos h acc ic cc
    by_cases h1 : pos + 30 < b.length
    · cases h2 : magicAt b pos with
      | false =>
        rw [scanLoopC]
        simp only [dif_pos h1, h2, Bool.false_eq_true, if_false]
        have := ih (pos + 1) (by omega) acc ic (cc + 1)
        omega
      | true =>
        by_cases h3 : b.length < nameEndAt b pos
        · rw [scanLoopC]; simp only [dif_pos h1, h2, if_true, if_pos h3]; omega
        · by_cases h4 : b.length < dataEndAt b pos
          · rw [scanLoopC]
            simp only [dif_pos h1, h2, if_true, if_neg h3, if_pos h4]
            omega
          · have hd := le_dataEndAt b pos
            rw [scanLoopC]
            simp only [dif_pos h1, h2, if_true, if_neg h3, if_neg h4]
            have := ih (dataEndAt b pos) (by omega)
              (acc ++ (entryValueAt inflate parse b pos).toList)
              (ic + (if nameEndsWithJson (entryNameAt b pos) = true ∧
                  compressionMethodAt b pos = 8 then 1 else 0)) (cc + 1)
            omega
    · rw [scanLoopC]; simp [h1]

/-! ### Synthetic single entries and archives

The spec's testable properties quantify over synthetically constructed
archives; `mkEntry` builds one well-formed local-file-header record with a
chosen method, name and payload-region bytes, and `mkArchive` concatenates
such records. -/

/-- A synthetic archive entry: compression method, file name bytes, and
the bytes stored in the entry's payload region. -/
structure Entry where
  method : Nat
  name : List Nat
  payload : List Nat

/-- Little-endian bytes of a 16-bit value. -/
def le16 (n : Nat) : List Nat := [n % 256, n / 256 % 256]

/-- Little-endian bytes of a 32-bit value. -/
def le32 (n : Nat) : List Nat :=
  [n % 256, n / 256 % 256, n / 65536 % 256, n / 16777216 % 256]

/-- A 30-byte ZIP local file header: signature, version and flags (zeroed),
method, time, date and crc (zeroed), compressed size, uncompressed size
(zeroed), name length, extra length. -/
def localHeader (method csize nameLen extraLen : Nat) : List Nat :=
  magicBytes ++ [0, 0, 0, 0] ++ le16 method ++ [0, 0, 0, 0, 0, 0, 0, 0] ++
    le32 csize ++ [0, 0, 0, 0] ++ le16 nameLen ++ le16 extraLen

/-- One synthetic entry: header, name bytes, payload bytes, no extra
field. -/
def mkEntry (e : Entry) : List Nat :=
  localHeader e.method e.payload.length e.name.length 0 ++ e.name ++ e.payload

/-- Consecutively placed synthetic entries. -/
def mkArchive : List Entry → List Nat
  | [] => []
  | e :: es => mkEntry e ++ mkArchive es

theorem localHeader_length (m cs nl xl : Nat) : (localHeader m cs nl xl).length = 30 := rfl

theorem mkEntry_length (e : Entry) :
    (mkEntry e).length = 30 + e.name.length + e.payload.length := by
  simp [mkEntry, localHeader_length]
  omega

/-- The synthetic entry starts with the signature. -/
theorem magicAt_mkEntry (e : Entry) (rest : List Nat) :
    magicAt (mkEntry e ++ rest) 0 = true := rfl

theorem methodAt_mkEntry (e : Entry) (rest : List Nat) (h : e.method < 65536) :
    compressionMethodAt (mkEntry e ++ rest) 0 = e.method := by
  have h0 : (mkEntry e ++ rest).getD (0 + 8) 0 = e.method % 256 := rfl
  have h1 : (mkEntry e ++ rest).getD (0 + 8 + 1) 0 = e.method / 256 % 256 := rfl
  simp only [compressionMethodAt, u16le, h0, h1]
  omega

theorem compressedSizeAt_mkEntry (e : Entry) (rest : List Nat)
    (h : e.payload.length < 4294967296) :
    compressedSizeAt (mkEntry e ++ rest) 0 = e.payload.length := by
  have h0 : (mkEntry e ++ rest).getD (0 + 18) 0 = e.payload.length % 256 := rfl
  have h1 : (mkEntry e ++ rest).getD (0 + 18 + 1) 0 = e.payload.length / 256 % 256 := rfl
  have h2 : (mkEntry e ++ rest).getD (0 + 18 + 2) 0 = e.payload.length / 65536 % 256 := rfl
  have h3 : (mkEntry e ++ rest).getD (0 + 18 + 3) 0 =
      e.payload.length / 16777216 % 256 := rfl
  simp only [compressedSizeAt, u32le, h0, h1, h2, h3]
  omega

theorem fileNameLenAt_mkEntry (e : Entry) (rest : List Nat) (h : e.name.length < 65536) :
    fileNameLenAt (mkEntry e ++ rest) 0 = e.name.length := by
  have h0 : (mkEntry e ++ rest).getD (0 + 26) 0 = e.name.length % 256 := rfl
  have h1 : (mkEntry e ++ rest).getD (0 + 26 + 1) 0 = e.name.length / 256 % 256 := rfl
  simp only [fileNameLenAt, u16le, h0, h1]
  omega

theorem extraLenAt_mkEntry (e : Entry) (rest : List Nat) :
    extraLenAt (mkEntry e ++ rest) 0 = 0 := rfl

theorem nameEndAt_mkEntry (e : Entry) (rest : List Nat) (h : e.name.length < 65536) :
    nameEndAt (mkEntry e ++ rest) 0 = 30 + e.name.length := by
  simp [nameEndAt, fileNameLenAt_mkEntry e rest h]

theorem dataStartAt_mkEntry (e : Entry) (rest : List Nat) (h : e.name.length < 65536) :
    dataStartAt (mkEntry e ++ rest) 0 = 30 + e.name.length := by
  simp [dataStartAt, nameEndAt_mkEntry e rest h, extraLenAt_mkEntry e rest]

theorem dataEndAt_mkEntry (e : Entry) (rest : List Nat) (hn : e.name.length < 65536)
    (hp : e.payload.length < 4294967296) :
    dataEndAt (mkEntry e ++ rest) 0 = 30 + e.name.length + e.payload.length := by
  simp [dataEndAt, dataStartAt_mkEntry e rest hn, compressedSizeAt_mkEntry e rest hp]

/-- The buffer regrouped so the header is one left factor. -/
theorem mkEntry_append_assoc (e : Entry) (rest : List Nat) :
    mkEntry e ++ rest =
      localHeader e.method e.payload.length e.name.length 0 ++
        (e.name ++ (e.payload ++ rest)) := by
  simp [mkEntry, List.append_assoc]

theorem entryNameAt_mkEntry (e : Entry) (rest : List Nat) (h : e.name.length < 65536) :
    entryNameAt (mkEntry e ++ rest) 0 = e.name := by
  rw [entryNameAt, nameEndAt_mkEntry e rest h, byteSlice]
  rw [show (0 : Nat) + 30 = 30 from rfl, show 30 + e.name.length - 30 = e.name.length from by omega]
  rw [mkEntry_append_assoc e rest,
    List.drop_left' (localHeader_length e.method e.payload.length e.name.length 0),
    List.take_left' rfl]

theorem entryDataAt_mkEntry (e : Entry) (rest : List Nat) (hn : e.name.length < 65536)
    (hp : e.payload.length < 4294967296) :
    entryDataAt (mkEntry e ++ rest) 0 = e.payload := by
  rw [entryDataAt, dataStartAt_mkEntry e rest hn, dataEndAt_mkEntry e rest hn hp, byteSlice]
  rw [show 30 + e.name.length + e.payload.length - (30 + e.name.length) =
    e.payload.length from by omega]
  have hgroup : mkEntry e ++ rest =
      (localHeader e.method e.payload.length e.name.length 0 ++ e.name) ++
        (e.payload ++ rest) := by
    simp [mkEntry, List.append_assoc]
  have hlen : (localHeader e.method e.payload.length e.name.length 0 ++ e.name).length =
      30 + e.name.length := by
    simp [localHeader_length]
  rw [hgroup, List.drop_left' hlen, List.take_left' rfl]

/-! ### Position-shift lemmas

Scanning `e ++ rest` from a position at or past `e.length` only ever reads
`rest`; these lemmas relocate every header access accordingly. -/

theorem getD_shift (e rest : List Nat) (j : Nat) :
    (e ++ rest).getD (e.length + j) 0 = rest.getD j 0 := by
  rw [List.getD_append_right e rest 0 (e.length + j) (by omega)]
  simp

theorem drop_shift (e rest : List Nat) (j : Nat) :
    (e ++ rest).drop (e.length + j) = rest.drop j := by
  rw [← List.drop_drop, List.drop_left]

theorem byteSlice_shift (e rest : List Nat) (s t : Nat) :
    byteSlice (e ++ rest) (e.length + s) (e.length + t) = byteSlice rest s t := by
  rw [byteSlice, byteSlice, drop_shift]
  congr 1
  omega

theorem u16le_shift (e rest : List Nat) (j : Nat) :
    u16le (e ++ rest) (e.length + j) = u16le rest j := by
  rw [u16le, u16le, getD_shift,
    show e.length + j + 1 = e.length + (j + 1) from by omega, getD_shift]

theorem u32le_shift (e rest : List Nat) (j : Nat) :
    u32le (e ++ rest) (e.length + j) = u32le rest j := by
  rw [u32le, u32le, getD_shift,
    show e.length + j + 1 = e.length + (j + 1) from by omega, getD_shift,
    show e.length + j + 2 = e.length + (j + 2) from by omega, getD_shift,
    show e.length + j + 3 = e.length + (j + 3) from by omega, getD_shift]

theorem magicAt_shift (e rest : List Nat) (k : Nat) :
    magicAt (e ++ rest) (e.length + k) = magicAt rest k := by
  rw [magicAt, magicAt,
    show e.length + k + 4 = e.length + (k + 4) from by omega, byteSlice_shift]

theorem compressionMethodAt_shift (e rest : List Nat) (k : Nat) :
    compressionMethodAt (e ++ rest) (e.length + k) = compressionMethodAt rest k := by
  rw [compressionMethodAt, compressionMethodAt,
    show e.length + k + 8 = e.length + (k + 8) from by omega, u16le_shift]

theorem compressedSizeAt_shift (e rest : List Nat) (k : Nat) :
    compressedSizeAt (e ++ rest) (e.length + k) = compressedSizeAt rest k := by
  rw [compressedSizeAt, compressedSizeAt,
    show e.length + k + 18 = e.length + (k + 18) from by omega, u32le_shift]

theorem fileNameLenAt_shift (e rest : List Nat) (k : Nat) :
    fileNameLenAt (e ++ rest) (e.length + k) = fileNameLenAt rest k := by
  rw [fileNameLenAt, fileNameLenAt,
    show e.length + k + 26 = e.length + (k + 26) from by omega, u16le_shift]

theorem extraLenAt_shift (e rest : List Nat) (k : Nat) :
    extraLenAt (e ++ rest) (e.length + k) = extraLenAt rest k := by
  rw [extraLenAt, extraLenAt,
    show e.length + k + 28 = e.length + (k + 28) from by omega, u16le_shift]

theorem nameEndAt_shift (e rest : List Nat) (k : Nat) :
    nameEndAt (e ++ rest) (e.length + k) = e.length + nameEndAt rest k := by
  rw [nameEndAt, nameEndAt, fileNameLenAt_shift]
  omega

theorem dataStartAt_shift (e rest : List Nat) (k : Nat) :
    dataStartAt (e ++ rest) (e.length + k) = e.length + dataStartAt rest k := by
  rw [dataStartAt, dataStartAt, nameEndAt_shift, extraLenAt_shift]
  omega

theorem dataEndAt_shift (e rest : List Nat) (k : Nat) :
    dataEndAt (e ++ rest) (e.length + k) = e.length + dataEndAt rest k := by
  rw [dataEndAt, dataEndAt, dataStartAt_shift, compressedSizeAt_shift]
  omega

theorem entryNameAt_shift (e rest : List Nat) (k : Nat) :
    entryNameAt (e ++ rest) (e.length + k) = entryNameAt rest k := by
  rw [entryNameAt, entryNameAt, nameEndAt_shift,
    show e.length + k + 30 = e.length + (k + 30) from by omega, byteSlice_shift]

theorem entryDataAt_shift (e rest : List Nat) (k : Nat) :
    entryDataAt (e ++ rest) (e.length + k) = entryDataAt rest k := by
  rw [entryDataAt, entryDataAt, dataStartAt_shift, dataEndAt_shift, byteSlice_shift]

theorem entryValueAt_shift {J : Type} (inflate : List Nat → Option (List Nat))
    (parse : List Nat → Option J) (e rest : List Nat) (k : Nat) :
    entryValueAt inflate parse (e ++ rest) (e.length + k) = entryValueAt inflate parse rest k := by
  rw [entryValueAt, entryValueAt, entryNameAt_shift, compressionMethodAt_shift,
    entryDataAt_shift]

/-- Scanning `e ++ rest` from position `e.length + k` is scanning `rest`
from `k`. -/
theorem scanLoop_shift {J : Type} (inflate : List Nat → Option (List Nat))
    (parse : List Nat → Option J) (e rest : List Nat) :
    ∀ (n k : Nat), rest.length - k ≤ n → ∀ acc : List J,
      scanLoop inflate parse (e ++ rest) (e.length + k) acc =
        scanLoop inflate parse rest k acc := by
  intro n
  induction n with
  | zero =>
    intro k h acc
    have h1 : ¬ k + 30 < rest.length := by omega
    have h1e : ¬ e.length + k + 30 < (e ++ rest).length := by
      simp only [List.length_append]; omega
    rw [scanLoop_stop _ _ _ _ _ h1e, scanLoop_stop _ _ _ _ _ h1]
  | succ n ih =>
    intro k h acc
    by_cases h1 : k + 30 < rest.length
    · have h1e : e.length + k + 30 < (e ++ rest).length := by
        simp only [List.length_append]; omega
      cases h2 : magicAt rest k with
      | false =>
        have h2e : magicAt (e ++ rest) (e.length + k) = false := by
          rw [magicAt_shift]; exact h2
        rw [scanLoop_skip _ _ _ _ _ h1e h2e, scanLoop_skip _ _ _ _ _ h1 h2,
          show e.length + k + 1 = e.length + (k + 1) from by omega]
        exact ih (k + 1) (by omega) acc
      | true =>
        have h2e : magicAt (e ++ rest) (e.length + k) = true := by
          rw [magicAt_shift]; exact h2
        by_cases h3 : rest.length < nameEndAt rest k
        · have h3e : (e ++ rest).length < nameEndAt (e ++ rest) (e.length + k) := by
            rw [nameEndAt_shift]; simp only [List.length_append]; omega
          rw [scanLoop_break_name _ _ _ _ _ h1e h2e h3e,
            scanLoop_break_name _ _ _ _ _ h1 h2 h3]
        · by_cases h4 : rest.length < dataEndAt rest k
          · have h3e : ¬ (e ++ rest).length < nameEndAt (e ++ rest) (e.length + k) := by
              rw [nameEndAt_shift]; simp only [List.length_append]; omega
            have h4e : (e ++ rest).length < dataEndAt (e ++ rest) (e.length + k) := by
              rw [dataEndAt_shift]; simp only [List.length_append]; omega
            rw [scanLoop_break_data _ _ _ _ _ h1e h2e h3e h4e,
              scanLoop_break_data _ _ _ _ _ h1 h2 h3 h4]
          · have h4e : ¬ (e ++ rest).length < dataEndAt (e ++ rest) (e.length + k) := by
              rw [dataEndAt_shift]; simp only [List.length_append]; omega
            have hd := le_dataEndAt rest k
            rw [scanLoop_entry _ _ _ _ _ h1e h2e h4e,
              scanLoop_entry _ _ _ _ _ h1 h2 h4,
              entryValueAt_shift, dataEndAt_shift]
            exact ih (dataEndAt rest k) (by omega) _
    · have h1e : ¬ e.length + k + 30 < (e ++ rest).length := by
        simp only [List.length_append]; omega
      rw [scanLoop_stop _ _ _ _ _ h1e, scanLoop_stop _ _ _ _ _ h1]

/-- The value a synthetic entry contributes: its payload is decoded by its
own method and parsed, provided its name passes the selector. -/
def entryValueOf {J : Type} (inflate : List Nat → Option (List Nat))
    (parse : List Nat → Option J) (e : Entry) : Option J :=
  if nameEndsWithJson e.name then parse (decompBytes inflate e.method e.payload)
  else none

/-- Processing one well-sized synthetic entry at the head of the buffer:
its decoded value (if any) is appended and scanning resumes at the start
of `rest`. -/
theorem scanLoop_mkEntry_cons {J : Type} (inflate : List Nat → Option (List Nat))
    (parse : List Nat → Option J) (e : Entry) (rest : List Nat) (acc : List J)
    (hm : e.method < 65536) (hn : e.name.length < 65536)
    (hp : e.payload.length < 4294967296)
    (hpos : 0 < e.name.length + e.payload.length + rest.length) :
    scanLoop inflate parse (mkEntry e ++ rest) 0 acc =
      scanLoop inflate parse rest 0 (acc ++ (entryValueOf inflate parse e).toList) := by
  have h1 : 0 + 30 < (mkEntry e ++ rest).length := by
    simp only [List.length_append, mkEntry_length]; omega
  have h4 : ¬ (mkEntry e ++ rest).length < dataEndAt (mkEntry e ++ rest) 0 := by
    rw [dataEndAt_mkEntry e rest hn hp]
    simp only [List.length_append, mkEntry_length]; omega
  rw [scanLoop_entry _ _ _ _ _ h1 (magicAt_mkEntry e rest) h4]
  have hval : entryValueAt inflate parse (mkEntry e ++ rest) 0 = entryValueOf inflate parse e := by
    rw [entryValueAt, entryValueOf, entryNameAt_mkEntry e rest hn,
      methodAt_mkEntry e rest hm, entryDataAt_mkEntry e rest hn hp]
  rw [hval, dataEndAt_mkEntry e rest hn hp,
    show 30 + e.name.length + e.payload.length = (mkEntry e).length + 0 from by
      rw [mkEntry_length]; omega]
  exact scanLoop_shift inflate parse (mkEntry e) rest rest.length 0 (by omega) _

/-! ### Concrete primitives and buffers for the closed instances -/

/-- A concrete inflate primitive that fails on every input, as the miniz
primitive does on a corrupt compressed stream. -/
def noInflate : List Nat → Option (List Nat) := fun _ => none

/-- A concrete JSON validator accepting exactly the one-byte documents
`1` (byte 49) and `2` (byte 50), which serde_json parses as numbers; every
other byte sequence (the empty one included) is rejected. -/
def smallParse : List Nat → Option Nat := fun l =>
  if l = [49] then some 1 else if l = [50] then some 2 else none

/-- The bytes of the name `a.json`. -/
def aJsonName : List Nat := [97, 46, 106, 115, 111, 110]

/-- The bytes of the name `b.json`. -/
def bJsonName : List Nat := [98, 46, 106, 115, 111, 110]

/-- The bytes of the name `a.txt`. -/
def aTxtName : List Nat := [97, 46, 116, 120, 116]

/-- The bytes of the directory name `d/`. -/
def dirName : List Nat := [100, 47]

/-- The bytes of the macOS metadata marker `__MACOSX`. -/
def macosxBytes : List Nat := [95, 95, 77, 65, 67, 79, 83, 88]

/-- The bytes of the name `__MACOSX/a.json`. -/
def macosxJsonName : List Nat :=
  [95, 95, 77, 65, 67, 79, 83, 88, 47, 97, 46, 106, 115, 111, 110]

/-- A valid stored entry `a.json` holding `1`, followed by a deflate entry
`b.json` whose compressed stream is corrupt (every inflate call fails). -/
def abBuf : List Nat := mkEntry ⟨0, aJsonName, [49]⟩ ++ mkEntry ⟨8, bJsonName, [7]⟩

/-- A single stored entry named `__MACOSX/a.json` holding the document `1`. -/
def macBuf : List Nat := mkEntry ⟨0, macosxJsonName, [49]⟩

/-- A single stored entry named `a.txt` (fails the selector). -/
def txtEntryBuf : List Nat := mkEntry ⟨0, aTxtName, [49]⟩

/-- Forty bytes in which the signature never occurs. -/
def zeros40 : List Nat := List.replicate 40 0

/-- A well-sized qualifying synthetic entry: its header fields encode
exactly and its name passes the `.json` selector. -/
@[reducible] def entryOk (e : Entry) : Prop :=
  e.method < 65536 ∧ e.name.length < 65536 ∧ e.payload.length < 4294967296 ∧
    nameEndsWithJson e.name = true

/-- A name passing the `.json` selector is at least five bytes long. -/
theorem five_le_length_of_json (name : List Nat) (h : nameEndsWithJson name = true) :
    5 ≤ name.length := by
  rw [nameEndsWithJson, List.isSuffixOf_iff_suffix] at h
  simpa [jsonSuffix] using h.length_le

/-- A name ending in the path separator `/` cannot pass the `.json`
selector: its last byte is 0x2f, not 0x6e. -/
theorem not_json_of_slash_suffix (name : List Nat)
    (hdir : [47].isSuffixOf name = true) : nameEndsWithJson name = false := by
  rw [List.isSuffixOf_iff_suffix] at hdir
  obtain ⟨t, ht⟩ := hdir
  cases hs : nameEndsWithJson name
  · rfl
  · exfalso
    rw [nameEndsWithJson, List.isSuffixOf_iff_suffix] at hs
    obtain ⟨u, hu⟩ := hs
    have hrev1 : name.reverse = 47 :: t.reverse := by
      rw [← ht]; simp
    have hrev2 : name.reverse = 110 :: (111 :: 115 :: 106 :: 46 :: u.reverse) := by
      rw [← hu]; simp [jsonSuffix]
    rw [hrev1] at hrev2
    simp at hrev2

/-! ### The claims -/

/-- Within the unbounded-offset model every access of the loop is in
bounds: the checked loop never fails and computes exactly the scanner's
result.  This does not transfer to the wasm32 target, where the
`data_end` addition of line 41 is a 32-bit `usize` add:
`overflow_input_panics_wasm32` below exhibits a buffer on which the real
program panics while this model breaks cleanly. -/
theorem extract_jsons_never_out_of_bounds {J : Type}
    (inflate : List Nat → Option (List Nat)) (parse : List Nat → Option J)
    (zip_bytes : List Nat) :
    extract_jsonsChecked inflate parse zip_bytes =
      some (extract_jsons inflate parse zip_bytes) :=
  scanLoopChecked_eq inflate parse zip_bytes zip_bytes.length 0 (by omega) []

/-- C2: a synthetic single-entry archive whose name passes the `.json`
selector yields exactly one value: with method 0 the parsed form of the
verbatim payload bytes, with method 8 the parsed form of the content the
compressed bytes inflate to. -/
theorem extract_jsons_single_entry {J : Type}
    (inflate : List Nat → Option (List Nat)) (parse : List Nat → Option J)
    (m : Nat) (name payload : List Nat) (v : J)
    (hn : name.length < 65536) (hp : payload.length < 4294967296)
    (hsel : nameEndsWithJson name = true)
    (hdecode : (m = 0 ∧ parse payload = some v) ∨
      (m = 8 ∧ ∃ content, inflate payload = some content ∧ parse content = some v)) :
    extract_jsons inflate parse (mkEntry ⟨m, name, payload⟩) = [v] := by
  have hm : m < 65536 := by
    rcases hdecode with ⟨rfl, _⟩ | ⟨rfl, _⟩ <;> omega
  have h5 := five_le_length_of_json name hsel
  rw [extract_jsons, show mkEntry ⟨m, name, payload⟩ = mkEntry ⟨m, name, payload⟩ ++ [] from by simp,
    scanLoop_mkEntry_cons inflate parse ⟨m, name, payload⟩ [] [] hm hn hp (by simp; omega),
    scanLoop_stop _ _ _ _ _ (by simp)]
  rcases hdecode with ⟨rfl, hparse⟩ | ⟨rfl, content, hinf, hparse⟩
  · simp [entryValueOf, hsel, decompBytes, hparse]
  · simp [entryValueOf, hsel, decompBytes, hinf, hparse]

/-- Closed instance for C2: the stored entry `a.json` with payload `1`. -/
theorem extract_jsons_single_entry_inst :
    nameEndsWithJson aJsonName = true ∧
      extract_jsons noInflate smallParse (mkEntry ⟨0, aJsonName, [49]⟩) = [1] :=
  ⟨by decide, extract_jsons_single_entry noInflate smallParse 0 aJsonName [49] 1
    (by decide) (by decide) (by decide) (Or.inl ⟨rfl, by decide⟩)⟩

/-- In the unbounded-offset model, when the computed name-region end or
payload-region end of the entry under the cursor exceeds the buffer
length, the scan stops there with the values accumulated so far.  On the
wasm32 target this break can be evaded by a wrapped 32-bit `data_end`:
see `overflow_break_unreachable_wasm32`. -/
theorem scanLoop_truncation_returns_partial {J : Type}
    (inflate : List Nat → Option (List Nat)) (parse : List Nat → Option J)
    (b : List Nat) (pos : Nat) (acc : List J)
    (h1 : pos + 30 < b.length) (h2 : magicAt b pos = true)
    (hover : b.length < nameEndAt b pos ∨ b.length < dataEndAt b pos) :
    scanLoop inflate parse b pos acc = acc := by
  by_cases h3 : b.length < nameEndAt b pos
  · exact scanLoop_break_name _ _ _ _ _ h1 h2 h3
  · rcases hover with h | h
    · exact absurd h h3
    · exact scanLoop_break_data _ _ _ _ _ h1 h2 h3 h

/-- Closed instance for C3: a header declaring a 50-byte name in a 31-byte
buffer, with one value already accumulated. -/
theorem scanLoop_truncation_returns_partial_inst :
    (localHeader 0 0 50 0 ++ [0]).length < nameEndAt (localHeader 0 0 50 0 ++ [0]) 0 ∧
      scanLoop noInflate smallParse (localHeader 0 0 50 0 ++ [0]) 0 [7] = [7] :=
  ⟨by decide, scanLoop_truncation_returns_partial noInflate smallParse
    (localHeader 0 0 50 0 ++ [0]) 0 [7] (by decide) (by decide) (Or.inl (by decide))⟩

/-- C4: an entry that passes the selector but produces no parseable
document — because its compressed stream fails to inflate (the
`unwrap_or_default` empty vector), its method is neither 0 nor 8 (the
`Vec::new()` branch), or its decoded bytes are not well-formed JSON —
contributes nothing, and the scan continues at the entry's `data_end`
rather than aborting. -/
theorem scanLoop_failed_entry_skipped {J : Type}
    (inflate : List Nat → Option (List Nat)) (parse : List Nat → Option J)
    (b : List Nat) (pos : Nat) (acc : List J)
    (h1 : pos + 30 < b.length) (h2 : magicAt b pos = true)
    (h4 : ¬ b.length < dataEndAt b pos)
    (hsel : nameEndsWithJson (entryNameAt b pos) = true)
    (hfail : parse (decompBytes inflate (compressionMethodAt b pos)
      (entryDataAt b pos)) = none) :
    scanLoop inflate parse b pos acc = scanLoop inflate parse b (dataEndAt b pos) acc := by
  rw [scanLoop_entry _ _ _ _ _ h1 h2 h4,
    show entryValueAt inflate parse b pos = none from by
      rw [entryValueAt]; simp [hsel, hfail]]
  simp

/-- Closed instance for C4: the archive `abBuf` holds a valid qualifying
entry A (`a.json`, stored, document `1`) followed by a qualifying entry B
(`b.json`, deflate) whose compressed stream is corrupt; the result holds
only A's decoded value. -/
theorem scanLoop_failed_entry_skipped_inst :
    extract_jsons noInflate smallParse abBuf = [1] := by
  rw [extract_jsons, scanLoop_entry _ _ _ _ _ (by decide) (by decide) (by decide),
    show dataEndAt abBuf 0 = 37 from by decide,
    show ([] ++ (entryValueAt noInflate smallParse abBuf 0).toList) = [1] from by decide,
    scanLoop_failed_entry_skipped noInflate smallParse abBuf 37 [1]
      (by decide) (by decide) (by decide) (by decide) (by decide),
    show dataEndAt abBuf 37 = 74 from by decide,
    scanLoop_stop _ _ _ _ _ (by decide)]

/-- C5 (amended): in the byte-level scanner an entry whose name ends in a
path separator never contributes a value — such a name cannot pass the
`.json` selector — and the scan moves on to `data_end`; the dedicated
macOS-metadata exclusions (`__MACOSX`, `.DS_Store`) exist only in the
`ZipArchive`-library variant, not in this scanner (see the accompanying
counterexample). -/
theorem scanLoop_directory_entry_skipped {J : Type}
    (inflate : List Nat → Option (List Nat)) (parse : List Nat → Option J)
    (b : List Nat) (pos : Nat) (acc : List J)
    (h1 : pos + 30 < b.length) (h2 : magicAt b pos = true)
    (h4 : ¬ b.length < dataEndAt b pos)
    (hdir : [47].isSuffixOf (entryNameAt b pos) = true) :
    scanLoop inflate parse b pos acc = scanLoop inflate parse b (dataEndAt b pos) acc := by
  rw [scanLoop_entry _ _ _ _ _ h1 h2 h4,
    show entryValueAt inflate parse b pos = none from by
      rw [entryValueAt]; simp [not_json_of_slash_suffix _ hdir]]
  simp

/-- Closed instance for C5 (amended): the directory entry `d/`. -/
theorem scanLoop_directory_entry_skipped_inst :
    [47].isSuffixOf (entryNameAt (mkEntry ⟨0, dirName, [0]⟩) 0) = true ∧
      scanLoop noInflate smallParse (mkEntry ⟨0, dirName, [0]⟩) 0 [] =
        scanLoop noInflate smallParse (mkEntry ⟨0, dirName, [0]⟩)
          (dataEndAt (mkEntry ⟨0, dirName, [0]⟩) 0) [] :=
  ⟨by decide, scanLoop_directory_entry_skipped noInflate smallParse
    (mkEntry ⟨0, dirName, [0]⟩) 0 [] (by decide) (by decide) (by decide) (by decide)⟩

/-- Counterexample to C5 as stated: the byte-level scanner does not skip
macOS metadata paths.  The single-entry archive `macBuf`, whose entry is
named `__MACOSX/a.json` (the name contains the `__MACOSX` marker) and
stores the document `1`, contributes that value to the result. -/
theorem macosx_json_entry_contributes :
    macosxBytes <:+: macosxJsonName ∧
      extract_jsons noInflate smallParse macBuf = [1] := by
  refine ⟨by decide, ?_⟩
  rw [extract_jsons, scanLoop_entry _ _ _ _ _ (by decide) (by decide) (by decide),
    show dataEndAt macBuf 0 = 46 from by decide,
    show ([] ++ (entryValueAt noInflate smallParse macBuf 0).toList) = [1] from by decide,
    scanLoop_stop _ _ _ _ _ (by decide)]

/-- C6: a buffer shorter than the 30-byte fixed header, and a buffer in
which the signature never occurs at any scanned position, both yield the
empty sequence. -/
theorem extract_jsons_empty_on_non_archive {J : Type}
    (inflate : List Nat → Option (List Nat)) (parse : List Nat → Option J)
    (b : List Nat) :
    (b.length < 30 → extract_jsons inflate parse b = []) ∧
      ((∀ pos, pos + 30 < b.length → magicAt b pos = false) →
        extract_jsons inflate parse b = []) := by
  constructor
  · intro h
    exact scanLoop_stop _ _ _ _ _ (by omega)
  · intro hm
    exact scanLoop_noMagic inflate parse b hm b.length 0 (by omega) []

/-- Closed instance for C6: a three-byte buffer. -/
theorem extract_jsons_empty_on_non_archive_inst :
    ([0, 1, 2] : List Nat).length < 30 ∧
      extract_jsons noInflate smallParse [0, 1, 2] = [] :=
  ⟨by decide, (extract_jsons_empty_on_non_archive noInflate smallParse [0, 1, 2]).1 (by decide)⟩

/-- C7: an in-bounds entry whose name fails the `.json` selector triggers
no decompression (the inflate-call counter of the instrumented scan does
not move), contributes nothing to the results, and the cursor advances to
the end of its declared payload region before the scan continues. -/
theorem scanLoopC_unselected_entry_skipped {J : Type}
    (inflate : List Nat → Option (List Nat)) (parse : List Nat → Option J)
    (b : List Nat) (pos : Nat) (acc : List J) (ic cc : Nat)
    (h1 : pos + 30 < b.length) (h2 : magicAt b pos = true)
    (h4 : ¬ b.length < dataEndAt b pos)
    (hsel : nameEndsWithJson (entryNameAt b pos) = false) :
    scanLoopC inflate parse b pos acc ic cc =
      scanLoopC inflate parse b (dataEndAt b pos) acc ic (cc + 1) := by
  have h3 : ¬ b.length < nameEndAt b pos := by
    have := nameEndAt_le_dataEndAt b pos; omega
  rw [scanLoopC]
  simp only [dif_pos h1, h2, if_true, if_neg h3, if_neg h4]
  rw [show entryValueAt inflate parse b pos = none from by
    rw [entryValueAt]; simp [hsel]]
  simp [hsel]

/-- Closed instance for C7: the stored entry `a.txt`. -/
theorem scanLoopC_unselected_entry_skipped_inst :
    nameEndsWithJson (entryNameAt txtEntryBuf 0) = false ∧
      scanLoopC noInflate smallParse txtEntryBuf 0 [] 0 0 =
        scanLoopC noInflate smallParse txtEntryBuf (dataEndAt txtEntryBuf 0) [] 0 (0 + 1) :=
  ⟨by decide, scanLoopC_unselected_entry_skipped noInflate smallParse txtEntryBuf 0 [] 0 0
    (by decide) (by decide) (by decide) (by decide)⟩

/-- C8: the scan always terminates (`scanLoop` is total by well-founded
recursion on `b.length - pos`), and on a buffer in which the signature
never matches it performs at most `b.length` signature comparisons; the
cursor strictly increases every iteration, by one on a mismatch and to
`data_end ≥ pos + 30` on a match. -/
theorem scan_resync_linear_bound {J : Type}
    (inflate : List Nat → Option (List Nat)) (parse : List Nat → Option J)
    (b : List Nat) (ic : Nat)
    (hm : ∀ q, q + 30 < b.length → magicAt b q = false) :
    (scanLoopC inflate parse b 0 [] ic 0).2.2 ≤ b.length ∧
      (∀ pos, pos + 30 ≤ dataEndAt b pos) ∧
      (∀ (pos : Nat) (acc : List J), pos + 30 < b.length → magicAt b pos = false →
        scanLoop inflate parse b pos acc = scanLoop inflate parse b (pos + 1) acc) := by
  refine ⟨?_, le_dataEndAt b, ?_⟩
  · have := scanLoopC_chk_le inflate parse b b.length 0 (by omega) [] ic 0
    omega
  · intro pos acc hp hq
    exact scanLoop_skip _ _ _ _ _ hp hq

/-- Closed instance for C8: forty bytes without the signature. -/
theorem scan_resync_linear_bound_inst :
    (scanLoopC noInflate smallParse zeros40 0 [] 0 0).2.2 ≤ zeros40.length :=
  (scan_resync_linear_bound noInflate smallParse zeros40 0 (fun q hq => by
    have hq10 : q < 10 := by simp [zeros40] at hq; omega
    interval_cases q <;> decide)).1

/-- C9: consecutively placed well-sized qualifying entries produce their
decoded values in exactly the order the entries occur in the buffer — the
result is the in-order `filterMap` of the per-entry decoded values. -/
theorem extract_jsons_order_preserving {J : Type}
    (inflate : List Nat → Option (List Nat)) (parse : List Nat → Option J)
    (es : List Entry) (hok : ∀ e ∈ es, entryOk e) :
    extract_jsons inflate parse (mkArchive es) =
      es.filterMap (entryValueOf inflate parse) := by
  revert hok
  induction es with
  | nil =>
    intro hok
    rw [extract_jsons, scanLoop_stop _ _ _ _ _ (by simp [mkArchive])]
    simp
  | cons e es ih =>
    intro hok
    obtain ⟨hm, hn, hp, hsel⟩ := hok e (by simp)
    have h5 := five_le_length_of_json e.name hsel
    have ih2 : scanLoop inflate parse (mkArchive es) 0 [] =
        es.filterMap (entryValueOf inflate parse) :=
      ih (fun x hx => hok x (by simp [hx]))
    rw [extract_jsons, show mkArchive (e :: es) = mkEntry e ++ mkArchive es from rfl,
      scanLoop_mkEntry_cons inflate parse e (mkArchive es) [] hm hn hp (by omega),
      scanLoop_acc_out, ih2]
    cases hv : entryValueOf inflate parse e <;> simp [hv]

/-- Closed instance for C9: two stored entries `a.json` (document `1`) and
`b.json` (document `2`), decoded in that order. -/
theorem extract_jsons_order_preserving_inst :
    extract_jsons noInflate smallParse
      (mkArchive [⟨0, aJsonName, [49]⟩, ⟨0, bJsonName, [50]⟩]) = [1, 2] := by
  have h := extract_jsons_order_preserving noInflate smallParse
    [⟨0, aJsonName, [49]⟩, ⟨0, bJsonName, [50]⟩]
    (by intro e he; rcases (by simpa using he : _ ∨ _) with rfl | rfl <;> decide)
  rw [h]
  decide

/-- C10: whenever the bytes remaining past the cursor number exactly 30,
the loop guard `pos + 30 < len` already fails, so no entry is parsed there
— even a complete, valid, zero-length-fields local file header occupying
exactly those bytes is dropped. -/
theorem scanLoop_exact_header_tail_dropped {J : Type}
    (inflate : List Nat → Option (List Nat)) (parse : List Nat → Option J)
    (b : List Nat) (pos : Nat) (acc : List J) (h : pos + 30 = b.length) :
    scanLoop inflate parse b pos acc = acc :=
  scanLoop_stop _ _ _ _ _ (by omega)

/-- Closed instance for C10: a buffer that is exactly one complete valid
local file header with zero name, extra and payload lengths. -/
theorem scanLoop_exact_header_tail_dropped_inst :
    magicAt (localHeader 0 0 0 0) 0 = true ∧
      extract_jsons noInflate smallParse (localHeader 0 0 0 0) = [] :=
  ⟨by decide, scanLoop_exact_header_tail_dropped noInflate smallParse
    (localHeader 0 0 0 0) 0 [] (by decide)⟩

/-! ### The wasm32 usize overflow

The crate is built with `wasm_bindgen` for the wasm32 target, where
`usize` is 32 bits.  `compressed_size` is read from the header as a full
`u32`, so line 41's `data_end = data_start + compressed_size` can exceed
2^32: a debug build aborts on the overflowing add, a release build wraps
it.  A wrapped `data_end` lies below `data_start`, defeats the
`data_end > zip_bytes.len()` break test of line 42, and makes line 45
request the slice `&zip_bytes[data_start..data_end]` with its start beyond
its end — which panics.  The definitions and theorems below exhibit this
on a concrete 40-byte buffer. -/

/-- 2^32, the modulus of `usize` arithmetic on the wasm32 target. -/
def usizeMod : Nat := 4294967296

/-- line 33's `name_end` as the 32-bit release build computes it. -/
def nameEndWasm32 (b : List Nat) (pos : Nat) : Nat :=
  (pos + 30 + fileNameLenAt b pos) % usizeMod

/-- line 40's `data_start` as the 32-bit release build computes it. -/
def dataStartWasm32 (b : List Nat) (pos : Nat) : Nat :=
  (nameEndWasm32 b pos + extraLenAt b pos) % usizeMod

/-- line 41's `data_end` as the 32-bit release build computes it: the
`usize` sum wraps modulo 2^32 (a debug build aborts on the overflowing
add instead of wrapping). -/
def dataEndWasm32 (b : List Nat) (pos : Nat) : Nat :=
  (dataStartWasm32 b pos + compressedSizeAt b pos) % usizeMod

/-- A 40-byte adversarial buffer: a valid local file header with method 0,
zero name and extra lengths, declared `compressed_size = 0xFFFFFFFF`, and
ten filler bytes. -/
def overflowBuf : List Nat :=
  localHeader 0 4294967295 0 0 ++ [0, 0, 0, 0, 0, 0, 0, 0, 0, 0]

/-- C1 (code bug): on the wasm32 target an error does escape on
adversarial input.  For `overflowBuf` the first iteration passes every
guard of the source — the loop guard and the signature test hold,
`name_end = 30` is within the 40-byte buffer, and the wrapped
`data_end = (30 + 0xFFFFFFFF) mod 2^32 = 29` defeats the
`data_end > len` test — yet the payload slice request
`&zip_bytes[30..29]` has its start beyond its end, so the program panics
(a debug build already aborts on the overflowing add).  The
unbounded-arithmetic model instead breaks cleanly and returns `[]`. -/
theorem overflow_input_panics_wasm32 :
    (0 + 30 < overflowBuf.length ∧ magicAt overflowBuf 0 = true ∧
      ¬ overflowBuf.length < nameEndWasm32 overflowBuf 0 ∧
      ¬ overflowBuf.length < dataEndWasm32 overflowBuf 0) ∧
      dataEndWasm32 overflowBuf 0 < dataStartWasm32 overflowBuf 0 ∧
      byteSliceChecked overflowBuf (dataStartWasm32 overflowBuf 0)
        (dataEndWasm32 overflowBuf 0) = none ∧
      extract_jsons noInflate smallParse overflowBuf = [] := by
  refine ⟨by decide, by decide, by decide, ?_⟩
  rw [extract_jsons,
    scanLoop_break_data _ _ _ _ _ (by decide) (by decide) (by decide) (by decide)]

/-- C3 (code bug): at `overflowBuf` the mathematically computed payload
region end `30 + 0xFFFFFFFF = 4294967325` exceeds the 40-byte buffer —
the claim's premise — but the program does not stop and return the
accumulated values there: on wasm32 the 32-bit `data_end` wraps to 29,
which the `data_end > zip_bytes.len()` break test of line 42 does not
catch, and the slice `&zip_bytes[30..29]` panics instead of truncating
(a debug build aborts on the add). -/
theorem overflow_break_unreachable_wasm32 :
    overflowBuf.length < dataEndAt overflowBuf 0 ∧
      ¬ overflowBuf.length < dataEndWasm32 overflowBuf 0 ∧
      byteSliceChecked overflowBuf (dataStartWasm32 overflowBuf 0)
        (dataEndWasm32 overflowBuf 0) = none := by
  decide
